import Mathlib

/-!
# Verification of the ai-companion memory and personality subsystem

This file gives a shallow embedding of the ai-companion repository's core
data model and operations, and proves the testable properties stated in its
specification.  The repository's checked-in sources hold the React frontend
(`App.tsx`, `ModelService.ts`, `MessageInput.tsx`, `PersonalityDisplay`),
which are embedded directly from the TypeScript.  The Python backend
(`memory.py`, the personality engine) is referenced by the repository's
README and development plan but is not checked in; those components are
modelled from the specification, and each such definition is marked
`Modelled from the spec:` in its doc comment.
-/

namespace AICompanion

/-- Modelled from the spec: the closed memory-kind variant
{episodic, semantic, emotional} of §3 (the backend memory store is not
checked in). -/
inductive Kind where
  | episodic
  | semantic
  | emotional
deriving DecidableEq, Repr

/-- Modelled from the spec: the `MemoryEntry` record of §3 (the backend
memory store is not checked in).  Scalars are rationals; timestamps are
naturals; `links` is the set of related entry ids; `archived` records the
soft-delete state (entries are never hard-deleted). -/
structure MemoryEntry where
  id : Nat
  content : String
  kind : Kind
  embedding : List ℚ
  importance : ℚ
  sentiment : ℚ
  created_at : Nat
  last_accessed_at : Nat
  access_count : Nat
  links : List Nat
  archived : Bool
deriving DecidableEq, Repr

/-- Modelled from the spec: the external Embedding Provider (§6,
`embed(text) -> fixed-length vector`).  The provider is an external
collaborator; it is modelled as the injective character-code embedding. -/
def embed (text : String) : List ℚ :=
  text.data.map (fun ch => (ch.toNat : ℚ))

/-- Modelled from the spec: vector similarity used by nearest-neighbor
search (§4.1).  Modelled as exact-match similarity: 1 on equal vectors,
0 otherwise. -/
def sim (a b : List ℚ) : ℚ :=
  if a = b then 1 else 0

/-- Modelled from the spec: the per-namespace memory store state.
`nextId` is the id handed to the next remembered entry and `now` the
store's current clock. -/
structure Store where
  entries : List MemoryEntry
  nextId : Nat
  now : Nat
deriving DecidableEq, Repr

/-- Modelled from the spec: the recall configuration constants of §4.1 and
§9 (weights α, β, γ, the exponential recency base, and the similarity
floor); the spec leaves their values as configuration choices. -/
structure RecallConfig where
  alpha : ℚ
  beta : ℚ
  gamma : ℚ
  decayBase : ℚ
  floor : ℚ
deriving DecidableEq, Repr

/-- Default configuration constants (the spec's §9 open question: exact
weights are a tuning choice). -/
def defaultRecallConfig : RecallConfig :=
  { alpha := 1, beta := 1/4, gamma := 1/4, decayBase := 9/10, floor := 1/2 }

/-- Modelled from the spec: the retrieval filters of §4.1 (kind, recency
window, minimum importance). -/
structure Filters where
  kindFilter : Option Kind
  minImportance : Option ℚ
  recentSince : Option Nat
deriving DecidableEq, Repr

/-- The empty filter set `{}`. -/
def Filters.empty : Filters :=
  { kindFilter := none, minImportance := none, recentSince := none }

/-- Whether an entry passes the given retrieval filters. -/
def matchesFilters (f : Filters) (e : MemoryEntry) : Bool :=
  (match f.kindFilter with
   | none => true
   | some kd => decide (e.kind = kd)) &&
  (match f.minImportance with
   | none => true
   | some m => decide (m ≤ e.importance)) &&
  (match f.recentSince with
   | none => true
   | some t => decide (t ≤ e.created_at))

/-- Modelled from the spec: recency decay, an exponential function of the
elapsed time since `created_at` (§4.1). -/
def recency (cfg : RecallConfig) (now : Nat) (e : MemoryEntry) : ℚ :=
  cfg.decayBase ^ (now - e.created_at)

/-- Modelled from the spec: the composite recall score
`score = α·similarity + β·importance + γ·recency_decay` (§4.1). -/
def score (cfg : RecallConfig) (now : Nat) (qe : List ℚ) (e : MemoryEntry) : ℚ :=
  cfg.alpha * sim qe e.embedding + cfg.beta * e.importance + cfg.gamma * recency cfg now e

/-- The recall ranking relation: descending composite score, ties broken by
higher `access_count`. -/
def RankAbove (cfg : RecallConfig) (now : Nat) (qe : List ℚ) (a b : MemoryEntry) : Prop :=
  score cfg now qe b < score cfg now qe a ∨
    (score cfg now qe a = score cfg now qe b ∧ b.access_count ≤ a.access_count)

instance (cfg : RecallConfig) (now : Nat) (qe : List ℚ) :
    DecidableRel (RankAbove cfg now qe) := by
  intro a b
  unfold RankAbove
  infer_instance

/-- Boolean form of `RankAbove`, used as the sort order. -/
def rankLe (cfg : RecallConfig) (now : Nat) (qe : List ℚ) (a b : MemoryEntry) : Bool :=
  decide (RankAbove cfg now qe a b)

/-- The candidate set of a recall: live entries passing the filters whose
similarity to the query meets the configured floor. -/
def candidates (cfg : RecallConfig) (f : Filters) (qe : List ℚ) (s : Store) :
    List MemoryEntry :=
  s.entries.filter fun e =>
    !e.archived && matchesFilters f e && decide (cfg.floor ≤ sim qe e.embedding)

/-- The retrieval side effect on one entry: returned entries get
`last_accessed_at` refreshed and `access_count` incremented (§4.1). -/
def accessTouch (now : Nat) (resIds : List Nat) (e : MemoryEntry) : MemoryEntry :=
  if e.id ∈ resIds then
    { e with last_accessed_at := now, access_count := e.access_count + 1 }
  else e

/-- Modelled from the spec: `recall(query_text, k, filters)` of §4.1.
Embeds the query, restricts to candidates passing the filters and the
similarity floor, ranks by descending composite score with access-count
tie-break, returns at most `k` entries, and as a side effect bumps
`last_accessed_at` and `access_count` of the returned entries in the
store. -/
def recallOp (cfg : RecallConfig) (s : Store) (q : String) (k : Nat) (f : Filters) :
    List MemoryEntry × Store :=
  let qe := embed q
  let ranked := (candidates cfg f qe s).mergeSort (rankLe cfg s.now qe)
  let res := ranked.take k
  let resIds := res.map (·.id)
  (res, { s with entries := s.entries.map (accessTouch s.now resIds) })

/-- Clamp a rational into the interval `[lo, hi]`. -/
def clampQ (lo hi x : ℚ) : ℚ :=
  max lo (min hi x)

/-- Modelled from the spec: the explicit kind weighting used by the
importance heuristic of §4.1 (kind-specific weighting tables, §9). -/
def kindWeight : Kind → ℚ
  | .episodic => 1/2
  | .semantic => 7/10
  | .emotional => 9/10

/-- Modelled from the spec: novelty of a new embedding — one minus the
similarity to the nearest existing embedding (§4.1). -/
def novelty (qe : List ℚ) (s : Store) : ℚ :=
  1 - (s.entries.map fun e => sim qe e.embedding).foldr max 0

/-- Modelled from the spec: the importance heuristic of §4.1, combining
sentiment magnitude, novelty, and explicit kind weighting, clamped into
the invariant range `[0, 1]`. -/
def importanceHeuristic (sentiment_hint : ℚ) (kd : Kind) (qe : List ℚ) (s : Store) : ℚ :=
  clampQ 0 1 ((|sentiment_hint| + novelty qe s + kindWeight kd) / 3)

/-- Modelled from the spec: `remember(content, kind, sentiment_hint)` of
§4.1.  Computes the importance heuristic, stores a fresh live entry with
no links, and advances the id counter.  (Transient `StorageError` retries
belong to the caller per §4.1 and are not part of the synchronous
operation.) -/
def remember (s : Store) (content : String) (kd : Kind) (sentiment_hint : ℚ) :
    MemoryEntry × Store :=
  let qe := embed content
  let e : MemoryEntry :=
    { id := s.nextId
      content := content
      kind := kd
      embedding := qe
      importance := importanceHeuristic sentiment_hint kd qe s
      sentiment := clampQ (-1) 1 sentiment_hint
      created_at := s.now
      last_accessed_at := s.now
      access_count := 0
      links := []
      archived := false }
  (e, { s with entries := s.entries ++ [e], nextId := s.nextId + 1 })

theorem char_code_injective :
    Function.Injective (fun ch : Char => (ch.toNat : ℚ)) := by
  intro a b h
  have hn : a.toNat = b.toNat := Nat.cast_injective h
  calc a = Char.ofNat a.toNat := (Char.ofNat_toNat a).symm
    _ = Char.ofNat b.toNat := by rw [hn]
    _ = b := Char.ofNat_toNat b

theorem embed_injective : Function.Injective embed := by
  intro s₁ s₂ h
  apply String.ext
  exact List.map_injective_iff.mpr char_code_injective h

theorem rankLe_trans (cfg : RecallConfig) (now : Nat) (qe : List ℚ)
    (a b c : MemoryEntry) (hab : rankLe cfg now qe a b) (hbc : rankLe cfg now qe b c) :
    rankLe cfg now qe a c := by
  simp only [rankLe, decide_eq_true_eq, RankAbove] at *
  rcases hab with h1 | ⟨h1, h1'⟩ <;> rcases hbc with h2 | ⟨h2, h2'⟩
  · exact Or.inl (h2.trans h1)
  · exact Or.inl (h2 ▸ h1)
  · exact Or.inl (h1 ▸ h2)
  · exact Or.inr ⟨h1.trans h2, le_trans h2' h1'⟩

theorem rankLe_total (cfg : RecallConfig) (now : Nat) (qe : List ℚ)
    (a b : MemoryEntry) : rankLe cfg now qe a b || rankLe cfg now qe b a := by
  simp only [rankLe, Bool.or_eq_true, decide_eq_true_eq, RankAbove]
  rcases lt_trichotomy (score cfg now qe a) (score cfg now qe b) with h | h | h
  · exact Or.inr (Or.inl h)
  · rcases Nat.le_total b.access_count a.access_count with h' | h'
    · exact Or.inl (Or.inr ⟨h, h'⟩)
    · exact Or.inr (Or.inr ⟨h.symm, h'⟩)
  · exact Or.inl (Or.inl h)

/-- **C1.** `recall(q, k, {})` returns at most `k` entries, each with
similarity to the query at least the configured floor, ordered by
descending composite score `α·similarity + β·importance + γ·recency_decay`
with ties between equal scores broken by the entry with the higher
`access_count`. -/
theorem recall_length_floor_sorted (cfg : RecallConfig) (s : Store) (q : String) (k : Nat) :
    (recallOp cfg s q k Filters.empty).1.length ≤ k ∧
    (∀ e ∈ (recallOp cfg s q k Filters.empty).1, cfg.floor ≤ sim (embed q) e.embedding) ∧
    (recallOp cfg s q k Filters.empty).1.Pairwise (RankAbove cfg s.now (embed q)) := by
  refine ⟨?_, ?_, ?_⟩
  · simp only [recallOp]
    exact le_trans (Nat.le_of_eq (List.length_take k _)) (Nat.min_le_left _ _)
  · intro e he
    simp only [recallOp] at he
    have hmem : e ∈ (candidates cfg Filters.empty (embed q) s).mergeSort
        (rankLe cfg s.now (embed q)) := List.mem_of_mem_take he
    rw [List.mem_mergeSort] at hmem
    have := (List.mem_filter.mp hmem).2
    simp only [Bool.and_eq_true, decide_eq_true_eq] at this
    exact this.2
  · have hs : ((candidates cfg Filters.empty (embed q) s).mergeSort
        (rankLe cfg s.now (embed q))).Pairwise
        (fun a b => rankLe cfg s.now (embed q) a b = true) :=
      List.sorted_mergeSort (rankLe_trans cfg s.now (embed q))
        (rankLe_total cfg s.now (embed q)) _
    have ht := hs.sublist (List.take_sublist k _)
    simp only [recallOp]
    exact ht.imp fun h => of_decide_eq_true h

/-- A store is embedding-faithful when every entry's stored embedding is
the embedding of its content (§3: computed at creation, recomputed when
content is edited during consolidation). -/
def EmbedFaithful (s : Store) : Prop :=
  ∀ e ∈ s.entries, e.embedding = embed e.content

instance : DecidablePred EmbedFaithful := fun s => by
  unfold EmbedFaithful
  infer_instance

/-- The empty store of a fresh namespace. -/
def emptyStore : Store :=
  { entries := [], nextId := 0, now := 0 }

/-- **C4.** Round-trip of store and retrieve: `remember(c, kind, s)`
followed immediately by `recall(c, 1, {})` returns a sequence containing
an entry whose content equals `c`. -/
theorem remember_recall_roundtrip (s : Store) (c : String) (kd : Kind) (sh : ℚ)
    (hemb : EmbedFaithful s) :
    ∃ e ∈ (recallOp defaultRecallConfig (remember s c kd sh).2 c 1 Filters.empty).1,
      e.content = c := by
  have hmemN : (remember s c kd sh).1 ∈
      candidates defaultRecallConfig Filters.empty (embed c) (remember s c kd sh).2 := by
    refine List.mem_filter.mpr ⟨?_, ?_⟩
    · exact List.mem_append_right _ (List.mem_singleton_self _)
    · have harch : (remember s c kd sh).1.archived = false := rfl
      have hembN : (remember s c kd sh).1.embedding = embed c := rfl
      rw [harch, hembN]
      simp [matchesFilters, Filters.empty, sim, defaultRecallConfig]
      norm_num
  obtain ⟨hd, tl, heq⟩ : ∃ hd tl,
      (candidates defaultRecallConfig Filters.empty (embed c)
        (remember s c kd sh).2).mergeSort
        (rankLe defaultRecallConfig (remember s c kd sh).2.now (embed c)) = hd :: tl := by
    apply List.exists_cons_of_ne_nil
    intro hnil
    have hm : (remember s c kd sh).1 ∈
        (candidates defaultRecallConfig Filters.empty (embed c)
          (remember s c kd sh).2).mergeSort
          (rankLe defaultRecallConfig (remember s c kd sh).2.now (embed c)) :=
      List.mem_mergeSort.mpr hmemN
    rw [hnil] at hm
    exact absurd hm (List.not_mem_nil _)
  have hres : (recallOp defaultRecallConfig (remember s c kd sh).2 c 1 Filters.empty).1
      = [hd] := by
    simp only [recallOp]
    rw [heq]
    rfl
  have hhd : hd ∈ (candidates defaultRecallConfig Filters.empty (embed c)
      (remember s c kd sh).2) := by
    apply List.mem_mergeSort.mp
    rw [heq]
    exact List.mem_cons_self hd tl
  have hfloor := (List.mem_filter.mp hhd).2
  simp only [Bool.and_eq_true, decide_eq_true_eq] at hfloor
  have hsim := hfloor.2
  have hembeq : embed c = hd.embedding := by
    by_contra hne
    rw [sim, if_neg hne] at hsim
    norm_num [defaultRecallConfig] at hsim
  have hmem' : hd ∈ s.entries ++ [(remember s c kd sh).1] := (List.mem_filter.mp hhd).1
  have hcont : hd.content = c := by
    rcases List.mem_append.mp hmem' with h | h
    · have hfe := hemb hd h
      apply embed_injective
      rw [← hfe, hembeq]
    · have : hd = (remember s c kd sh).1 := by
        simpa using h
      rw [this]
      rfl
  exact ⟨hd, by rw [hres]; exact List.mem_singleton_self _, hcont⟩

/-! ## Consolidation (§4.1 `consolidate()`), modelled from the spec -/

/-- Modelled from the spec: the duplicate-merge similarity threshold of
§4.1 (a configuration constant per §9). -/
def dupThreshold : ℚ := 95/100

/-- Modelled from the spec: the link-creation similarity threshold of
§4.1 (a configuration constant per §9). -/
def linkThreshold : ℚ := 8/10

/-- Modelled from the spec: the cap on merged content length (§4.1). -/
def maxContentLength : Nat := 500

/-- Modelled from the spec: the exponential importance-decay factor
applied by consolidation (§4.1). -/
def decayFactor : ℚ := 9/10

/-- Modelled from the spec: the floor clamp of importance decay, so
high-importance memories never fully vanish (§4.1). -/
def importanceFloor : ℚ := 1/10

/-- Modelled from the spec: the long no-access window after which
consolidation decays importance (§4.1). -/
def longWindow : Nat := 1000

/-- Whether two entries are near-duplicates to be merged: both live, same
kind, distinct, similarity above the duplicate threshold (§4.1). -/
def mergeable (a b : MemoryEntry) : Bool :=
  !a.archived && !b.archived && decide (a.kind = b.kind) && decide (a.id ≠ b.id) &&
    decide (dupThreshold < sim a.embedding b.embedding)

/-- Whether two entries are similar enough to link: both live, same kind,
distinct, similarity above the link threshold (§4.1). -/
def linkable (a b : MemoryEntry) : Bool :=
  !a.archived && !b.archived && decide (a.kind = b.kind) && decide (a.id ≠ b.id) &&
    decide (linkThreshold < sim a.embedding b.embedding)

/-- First entry of the list mergeable with `x`, if any. -/
def findPartner (x : MemoryEntry) : List MemoryEntry → Option MemoryEntry
  | [] => none
  | y :: ys => if mergeable x y then some y else findPartner x ys

/-- First mergeable pair of the list, if any. -/
def findMergeablePair : List MemoryEntry → Option (MemoryEntry × MemoryEntry)
  | [] => none
  | x :: xs =>
    match findPartner x xs with
    | some y => some (x, y)
    | none => findMergeablePair xs

/-- Content concatenation capped at the maximum length (§4.1). -/
def capContent (c : String) : String :=
  if c.length ≤ maxContentLength then c else c.take maxContentLength

/-- The entry resulting from merging the absorbed entry `ab` into the
survivor `sv`: capped content concatenation, recomputed embedding (§3),
importance the max of the two, links unioned (§4.1). -/
def mergedEntry (sv ab : MemoryEntry) : MemoryEntry :=
  let newContent := capContent (sv.content ++ " " ++ ab.content)
  { sv with
    content := newContent
    embedding := embed newContent
    importance := max sv.importance ab.importance
    links := (sv.links ++ ab.links).filter fun l => l ≠ sv.id }

/-- How one merge rewrites a single entry: the absorbed entry is archived
(never hard-deleted), the survivor becomes the merged entry, and every
entry the survivor now links to receives the symmetric back-link. -/
def mergeTouch (sv ab e : MemoryEntry) : MemoryEntry :=
  if e.id = ab.id then { e with archived := true }
  else if e.id = sv.id then { mergedEntry sv ab with archived := e.archived }
  else if e.id ∈ (mergedEntry sv ab).links then { e with links := e.links.insert sv.id }
  else e

/-- Apply one merge of `ab` into the survivor `sv` across the store. -/
def applyMerge (es : List MemoryEntry) (sv ab : MemoryEntry) : List MemoryEntry :=
  es.map (mergeTouch sv ab)

/-- One merge step: merge the first mergeable pair, the lower-importance
entry into the higher one (§4.1); `none` when no pair is mergeable. -/
def mergeStep (es : List MemoryEntry) : Option (List MemoryEntry) :=
  match findMergeablePair es with
  | none => none
  | some (x, y) =>
    if y.importance ≤ x.importance then some (applyMerge es x y)
    else some (applyMerge es y x)

/-- Merge near-duplicate pairs until none remains, fuelled by the entry
count (each merge archives one live entry, so the live count strictly
decreases).  Also returns the number of merges performed. -/
def mergeLoop : Nat → List MemoryEntry → List MemoryEntry × Nat
  | 0, es => (es, 0)
  | fuel + 1, es =>
    match mergeStep es with
    | none => (es, 0)
    | some es' =>
      let r := mergeLoop fuel es'
      (r.1, r.2 + 1)

/-- Add to one entry the links to every entry of the store linkable with
it (§3: links are symmetric, so the pass adds both directions). -/
def linkTouch (es : List MemoryEntry) (e : MemoryEntry) : MemoryEntry :=
  { e with
    links := e.links ++
      (((es.filter fun x => linkable e x).map (·.id)).filter fun l => l ∉ e.links) }

/-- Link every pair of linkable entries, in both directions. -/
def linkPass (es : List MemoryEntry) : List MemoryEntry :=
  es.map (linkTouch es)

/-- Floor-clamped exponential importance decay of one entry not accessed
within the long window (§4.1). -/
def decayTouch (now : Nat) (e : MemoryEntry) : MemoryEntry :=
  if e.last_accessed_at + longWindow < now then
    { e with importance := max importanceFloor (e.importance * decayFactor) }
  else e

/-- Importance decay across the store. -/
def decayPass (now : Nat) (es : List MemoryEntry) : List MemoryEntry :=
  es.map (decayTouch now)

/-- Modelled from the spec: `consolidate()` of §4.1.  Merges near
duplicates to a fixed point, links related entries, applies floor-clamped
importance decay; returns the number of merges performed. -/
def consolidate (s : Store) : Store × Nat :=
  let r := mergeLoop s.entries.length s.entries
  ({ s with entries := decayPass s.now (linkPass r.1) }, r.2)

/-- Number of live (non-archived) entries. -/
def liveCount (es : List MemoryEntry) : Nat :=
  es.countP fun e => !e.archived

theorem findPartner_some {x y : MemoryEntry} {ys : List MemoryEntry}
    (h : findPartner x ys = some y) : y ∈ ys ∧ mergeable x y = true := by
  induction ys with
  | nil => simp [findPartner] at h
  | cons z zs ih =>
    rw [findPartner] at h
    by_cases hz : mergeable x z
    · rw [if_pos hz] at h
      cases h
      exact ⟨List.mem_cons_self _ _, hz⟩
    · rw [if_neg hz] at h
      obtain ⟨h1, h2⟩ := ih h
      exact ⟨List.mem_cons_of_mem _ h1, h2⟩

theorem findMergeablePair_some {es : List MemoryEntry} {x y : MemoryEntry}
    (h : findMergeablePair es = some (x, y)) :
    x ∈ es ∧ y ∈ es ∧ mergeable x y = true := by
  induction es with
  | nil => simp [findMergeablePair] at h
  | cons z zs ih =>
    rw [findMergeablePair] at h
    cases hp : findPartner z zs with
    | some w =>
      rw [hp] at h
      cases h
      obtain ⟨hw, hm⟩ := findPartner_some hp
      exact ⟨List.mem_cons_self _ _, List.mem_cons_of_mem _ hw, hm⟩
    | none =>
      rw [hp] at h
      obtain ⟨h1, h2, h3⟩ := ih h
      exact ⟨List.mem_cons_of_mem _ h1, List.mem_cons_of_mem _ h2, h3⟩

theorem mergeable_fields {x y : MemoryEntry} (h : mergeable x y = true) :
    x.archived = false ∧ y.archived = false ∧ x.kind = y.kind ∧ x.id ≠ y.id := by
  simp only [mergeable, Bool.and_eq_true, Bool.not_eq_true', decide_eq_true_eq] at h
  exact ⟨h.1.1.1.1, h.1.1.1.2, h.1.1.2, h.1.2⟩

theorem countP_le_of_mono {α : Type} (p q : α → Bool) (l : List α)
    (hmono : ∀ a ∈ l, p a = true → q a = true) : l.countP p ≤ l.countP q := by
  induction l with
  | nil => simp
  | cons x xs ih =>
    rw [List.countP_cons, List.countP_cons]
    have h1 := ih fun a h => hmono a (List.mem_cons_of_mem _ h)
    by_cases hx : p x = true
    · rw [if_pos hx, if_pos (hmono x (List.mem_cons_self _ _) hx)]
      omega
    · rw [if_neg hx]
      have : (if q x = true then 1 else 0) ≥ 0 := Nat.zero_le _
      omega

theorem countP_lt_of_witness {α : Type} (p q : α → Bool) (l : List α)
    (hmono : ∀ a ∈ l, p a = true → q a = true)
    (a : α) (ha : a ∈ l) (hqa : q a = true) (hpa : p a = false) :
    l.countP p < l.countP q := by
  induction l with
  | nil => cases ha
  | cons x xs ih =>
    rw [List.countP_cons, List.countP_cons]
    rcases List.mem_cons.mp ha with rfl | hmem
    · rw [hpa, hqa]
      have := countP_le_of_mono p q xs fun b hb => hmono b (List.mem_cons_of_mem _ hb)
      simp only [Bool.false_eq_true, if_false, if_true]
      omega
    · have h1 := ih (fun b hb => hmono b (List.mem_cons_of_mem _ hb)) hmem
      by_cases hx : p x = true
      · rw [if_pos hx, if_pos (hmono x (List.mem_cons_self _ _) hx)]
        omega
      · rw [if_neg hx]
        have : (if q x = true then 1 else 0) ≥ 0 := Nat.zero_le _
        omega

theorem liveCount_applyMerge_lt (es : List MemoryEntry) (sv ab : MemoryEntry)
    (hab : ab ∈ es) (hlive : ab.archived = false) (_hne : sv.id ≠ ab.id) :
    liveCount (applyMerge es sv ab) < liveCount es := by
  unfold liveCount applyMerge
  rw [List.countP_map]
  apply countP_lt_of_witness _ _ es _ ab hab
  · simp [hlive]
  · simp [Function.comp, mergeTouch]
  · intro e _ hp
    simp only [Function.comp] at hp
    unfold mergeTouch at hp
    by_cases h1 : e.id = ab.id
    · rw [if_pos h1] at hp
      simp at hp
    · rw [if_neg h1] at hp
      by_cases h2 : e.id = sv.id
      · rw [if_pos h2] at hp
        simpa using hp
      · rw [if_neg h2] at hp
        by_cases h3 : e.id ∈ (mergedEntry sv ab).links
        · rw [if_pos h3] at hp
          simpa using hp
        · rwa [if_neg h3] at hp

theorem mergeStep_liveCount {es es' : List MemoryEntry} (h : mergeStep es = some es') :
    liveCount es' < liveCount es := by
  unfold mergeStep at h
  cases hf : findMergeablePair es with
  | none => rw [hf] at h; cases h
  | some p =>
    obtain ⟨x, y⟩ := p
    rw [hf] at h
    dsimp only at h
    obtain ⟨hx, hy, hm⟩ := findMergeablePair_some hf
    obtain ⟨hxl, hyl, _, hne⟩ := mergeable_fields hm
    by_cases himp : y.importance ≤ x.importance
    · rw [if_pos himp] at h
      cases h
      exact liveCount_applyMerge_lt es x y hy hyl hne
    · rw [if_neg himp] at h
      cases h
      exact liveCount_applyMerge_lt es y x hx hxl (Ne.symm hne)

theorem mergeStep_none_iff (es : List MemoryEntry) :
    mergeStep es = none ↔ findMergeablePair es = none := by
  unfold mergeStep
  cases hf : findMergeablePair es with
  | none => simp
  | some p =>
    obtain ⟨x, y⟩ := p
    by_cases h : y.importance ≤ x.importance <;> simp [h]

theorem mergeLoop_reaches_fixedpoint (fuel : Nat) :
    ∀ es, liveCount es ≤ fuel → findMergeablePair (mergeLoop fuel es).1 = none := by
  induction fuel with
  | zero =>
    intro es h
    show findMergeablePair es = none
    cases hf : findMergeablePair es with
    | none => rfl
    | some p =>
      obtain ⟨x, y⟩ := p
      obtain ⟨hx, _, hm⟩ := findMergeablePair_some hf
      obtain ⟨hxl, _, _, _⟩ := mergeable_fields hm
      have hpos : 0 < liveCount es := by
        rw [liveCount, List.countP_pos_iff]
        exact ⟨x, hx, by simp [hxl]⟩
      omega
  | succ n ih =>
    intro es h
    rw [mergeLoop]
    cases hs : mergeStep es with
    | none =>
      have := (mergeStep_none_iff es).mp hs
      simpa using this
    | some es' =>
      have hlt := mergeStep_liveCount hs
      simp only []
      exact ih es' (by omega)

theorem mergeLoop_of_fixedpoint (fuel : Nat) (es : List MemoryEntry)
    (h : findMergeablePair es = none) : mergeLoop fuel es = (es, 0) := by
  cases fuel with
  | zero => rfl
  | succ n =>
    rw [mergeLoop, (mergeStep_none_iff es).mpr h]

/-- The map function of a pass preserves the fields consulted by the
merge condition. -/
def FieldsPreserved (f : MemoryEntry → MemoryEntry) : Prop :=
  ∀ e, (f e).archived = e.archived ∧ (f e).kind = e.kind ∧
    (f e).embedding = e.embedding ∧ (f e).id = e.id

theorem mergeable_map {f : MemoryEntry → MemoryEntry} (hf : FieldsPreserved f)
    (a b : MemoryEntry) : mergeable (f a) (f b) = mergeable a b := by
  obtain ⟨h1, h2, h3, h4⟩ := hf a
  obtain ⟨g1, g2, g3, g4⟩ := hf b
  unfold mergeable
  rw [h1, h2, h3, h4, g1, g2, g3, g4]

theorem findPartner_map_isNone {f : MemoryEntry → MemoryEntry} (hf : FieldsPreserved f)
    (x : MemoryEntry) (ys : List MemoryEntry) :
    (findPartner (f x) (ys.map f)).isNone = (findPartner x ys).isNone := by
  induction ys with
  | nil => rfl
  | cons z zs ih =>
    rw [List.map_cons, findPartner, findPartner, mergeable_map hf]
    by_cases h : mergeable x z
    · rw [if_pos h, if_pos h]
      rfl
    · rw [if_neg h, if_neg h]
      exact ih

theorem findMergeablePair_map_none {f : MemoryEntry → MemoryEntry}
    (hf : FieldsPreserved f) (es : List MemoryEntry)
    (h : findMergeablePair es = none) : findMergeablePair (es.map f) = none := by
  induction es with
  | nil => rfl
  | cons x xs ih =>
    rw [List.map_cons, findMergeablePair]
    rw [findMergeablePair] at h
    cases hp : findPartner x xs with
    | some y => rw [hp] at h; cases h
    | none =>
      rw [hp] at h
      have hiso := findPartner_map_isNone hf x xs
      rw [hp] at hiso
      cases hq : findPartner (f x) (xs.map f) with
      | some y => rw [hq] at hiso; simp at hiso
      | none => exact ih h

theorem linkTouch_fieldsPreserved (es : List MemoryEntry) :
    FieldsPreserved (linkTouch es) :=
  fun _ => ⟨rfl, rfl, rfl, rfl⟩

theorem decayTouch_fieldsPreserved (now : Nat) :
    FieldsPreserved (decayTouch now) := by
  intro e
  unfold decayTouch
  by_cases h : e.last_accessed_at + longWindow < now
  · rw [if_pos h]
    exact ⟨rfl, rfl, rfl, rfl⟩
  · rw [if_neg h]
    exact ⟨rfl, rfl, rfl, rfl⟩

/-- **C3.** `consolidate()` is idempotent from any state: after one run of
`consolidate()` the merge relation is at a fixed point, so a second run
with no intervening `remember` performs no further merges. -/
theorem consolidate_consolidate_no_merges (s : Store) :
    (consolidate (consolidate s).1).2 = 0 := by
  have h1 : findMergeablePair (mergeLoop s.entries.length s.entries).1 = none :=
    mergeLoop_reaches_fixedpoint _ s.entries (List.countP_le_length _)
  have h2 : findMergeablePair ((consolidate s).1).entries = none := by
    show findMergeablePair
      (decayPass s.now (linkPass (mergeLoop s.entries.length s.entries).1)) = none
    unfold decayPass linkPass
    apply findMergeablePair_map_none (decayTouch_fieldsPreserved s.now)
    exact findMergeablePair_map_none (linkTouch_fieldsPreserved _) _ h1
  show (mergeLoop ((consolidate s).1).entries.length ((consolidate s).1).entries).2 = 0
  rw [mergeLoop_of_fixedpoint _ _ h2]

/-! ## Store invariants (§3) -/

/-- The bounded-range invariant of §3: importance in `[0,1]`, sentiment in
`[-1,1]`. -/
def InRange (e : MemoryEntry) : Prop :=
  0 ≤ e.importance ∧ e.importance ≤ 1 ∧ -1 ≤ e.sentiment ∧ e.sentiment ≤ 1

instance : DecidablePred InRange := fun e => by
  unfold InRange
  infer_instance

/-- Well-formedness of an entry list under an id bound: distinct ids, ids
and link targets below the bound, bounded ranges, no self-links, and
symmetric links (§3). -/
def WFe (nid : Nat) (es : List MemoryEntry) : Prop :=
  (es.map (·.id)).Nodup ∧
  (∀ e ∈ es, e.id < nid) ∧
  (∀ e ∈ es, InRange e) ∧
  (∀ e ∈ es, e.id ∉ e.links ∧ ∀ l ∈ e.links, l < nid) ∧
  (∀ a ∈ es, ∀ b ∈ es, b.id ∈ a.links → a.id ∈ b.links)

instance (nid : Nat) : DecidablePred (WFe nid) := fun es => by
  unfold WFe
  infer_instance

/-- Well-formedness of a store (§3 invariants). -/
def WF (s : Store) : Prop :=
  WFe s.nextId s.entries

instance : DecidablePred WF := fun s => by
  unfold WF
  infer_instance

theorem clampQ_le (lo hi x : ℚ) (h : lo ≤ hi) : clampQ lo hi x ≤ hi :=
  max_le h (min_le_left _ _)

theorem le_clampQ (lo hi x : ℚ) : lo ≤ clampQ lo hi x :=
  le_max_left _ _

theorem eq_of_id_eq {es : List MemoryEntry} (hnd : (es.map (·.id)).Nodup)
    {a b : MemoryEntry} (ha : a ∈ es) (hb : b ∈ es) (hid : a.id = b.id) : a = b :=
  List.inj_on_of_nodup_map hnd ha hb hid

theorem mem_mergedEntry_links {sv ab : MemoryEntry} {l : Nat} :
    l ∈ (mergedEntry sv ab).links ↔ (l ∈ sv.links ∨ l ∈ ab.links) ∧ l ≠ sv.id := by
  simp only [mergedEntry, List.mem_filter, List.mem_append, decide_eq_true_eq]

theorem mergeTouch_id (sv ab e : MemoryEntry) : (mergeTouch sv ab e).id = e.id := by
  unfold mergeTouch
  by_cases h1 : e.id = ab.id
  · rw [if_pos h1]
  · rw [if_neg h1]
    by_cases h2 : e.id = sv.id
    · rw [if_pos h2]
      exact h2.symm
    · rw [if_neg h2]
      by_cases h3 : e.id ∈ (mergedEntry sv ab).links
      · rw [if_pos h3]
      · rw [if_neg h3]

theorem mergeTouch_links (sv ab e : MemoryEntry) : (mergeTouch sv ab e).links =
    if e.id = ab.id then e.links
    else if e.id = sv.id then (mergedEntry sv ab).links
    else if e.id ∈ (mergedEntry sv ab).links then e.links.insert sv.id
    else e.links := by
  unfold mergeTouch
  by_cases h1 : e.id = ab.id
  · rw [if_pos h1, if_pos h1]
  · rw [if_neg h1, if_neg h1]
    by_cases h2 : e.id = sv.id
    · rw [if_pos h2, if_pos h2]
    · rw [if_neg h2, if_neg h2]
      by_cases h3 : e.id ∈ (mergedEntry sv ab).links
      · rw [if_pos h3, if_pos h3]
      · rw [if_neg h3, if_neg h3]

theorem sim_comm (a b : List ℚ) : sim a b = sim b a := by
  unfold sim
  by_cases h : a = b
  · rw [if_pos h, if_pos h.symm]
  · rw [if_neg h, if_neg (Ne.symm h)]

theorem mergeable_symm (a b : MemoryEntry) : mergeable a b = mergeable b a := by
  have h1 : decide (a.kind = b.kind) = decide (b.kind = a.kind) :=
    decide_eq_decide.mpr eq_comm
  have h2 : decide (a.id ≠ b.id) = decide (b.id ≠ a.id) :=
    decide_eq_decide.mpr ne_comm
  unfold mergeable
  rw [h1, h2, sim_comm, Bool.and_comm (!a.archived) (!b.archived)]

theorem linkable_symm (a b : MemoryEntry) : linkable a b = linkable b a := by
  have h1 : decide (a.kind = b.kind) = decide (b.kind = a.kind) :=
    decide_eq_decide.mpr eq_comm
  have h2 : decide (a.id ≠ b.id) = decide (b.id ≠ a.id) :=
    decide_eq_decide.mpr ne_comm
  unfold linkable
  rw [h1, h2, sim_comm, Bool.and_comm (!a.archived) (!b.archived)]

theorem linkable_fields {x y : MemoryEntry} (h : linkable x y = true) :
    x.archived = false ∧ y.archived = false ∧ x.kind = y.kind ∧ x.id ≠ y.id := by
  simp only [linkable, Bool.and_eq_true, Bool.not_eq_true', decide_eq_true_eq] at h
  exact ⟨h.1.1.1.1, h.1.1.1.2, h.1.1.2, h.1.2⟩

theorem mem_linkTouch_links {es : List MemoryEntry} {e : MemoryEntry} {l : Nat} :
    l ∈ (linkTouch es e).links ↔
      l ∈ e.links ∨ ∃ x ∈ es, linkable e x = true ∧ x.id = l := by
  unfold linkTouch
  simp only [List.mem_append, List.mem_filter, List.mem_map, decide_eq_true_eq]
  constructor
  · rintro (h | ⟨⟨x, ⟨hx1, hx2⟩, hxl⟩, -⟩)
    · exact Or.inl h
    · exact Or.inr ⟨x, hx1, hx2, hxl⟩
  · rintro (h | ⟨x, hx, hlk, hxl⟩)
    · exact Or.inl h
    · by_cases hmem : l ∈ e.links
      · exact Or.inl hmem
      · exact Or.inr ⟨⟨x, ⟨hx, hlk⟩, hxl⟩, hmem⟩

theorem nodup_ids_map {es : List MemoryEntry} (f : MemoryEntry → MemoryEntry)
    (hf : ∀ e, (f e).id = e.id) (hnd : (es.map (·.id)).Nodup) :
    ((es.map f).map (·.id)).Nodup := by
  rw [List.map_map]
  have hfun : ((·.id) ∘ f : MemoryEntry → Nat) = (·.id) := funext fun e => hf e
  rw [hfun]
  exact hnd

theorem mergeTouch_inRange (sv ab e : MemoryEntry) (hsv : InRange sv) (hab : InRange ab)
    (he : InRange e) : InRange (mergeTouch sv ab e) := by
  unfold mergeTouch
  by_cases h1 : e.id = ab.id
  · rw [if_pos h1]
    exact he
  · rw [if_neg h1]
    by_cases h2 : e.id = sv.id
    · rw [if_pos h2]
      obtain ⟨h01, h02, h03, h04⟩ := hsv
      obtain ⟨_, g02, _, _⟩ := hab
      exact ⟨le_max_of_le_left h01, max_le h02 g02, h03, h04⟩
    · rw [if_neg h2]
      by_cases h3 : e.id ∈ (mergedEntry sv ab).links
      · rw [if_pos h3]
        exact he
      · rw [if_neg h3]
        exact he

theorem WFe_applyMerge {nid : Nat} {es : List MemoryEntry} {sv ab : MemoryEntry}
    (hsv : sv ∈ es) (hab : ab ∈ es) (hm : mergeable sv ab = true)
    (h : WFe nid es) : WFe nid (applyMerge es sv ab) := by
  obtain ⟨hnd, hid, hrange, hlinks, hsym⟩ := h
  obtain ⟨hsvl, habl, hkind, hne⟩ := mergeable_fields hm
  have hsvn : sv.id < nid := hid sv hsv
  unfold applyMerge
  refine ⟨?_, ?_, ?_, ?_, ?_⟩
  · exact nodup_ids_map _ (mergeTouch_id sv ab) hnd
  · intro e' he'
    obtain ⟨e, he, rfl⟩ := List.mem_map.mp he'
    rw [mergeTouch_id]
    exact hid e he
  · intro e' he'
    obtain ⟨e, he, rfl⟩ := List.mem_map.mp he'
    exact mergeTouch_inRange sv ab e (hrange sv hsv) (hrange ab hab) (hrange e he)
  · intro e' he'
    obtain ⟨e, he, rfl⟩ := List.mem_map.mp he'
    rw [mergeTouch_id, mergeTouch_links]
    by_cases h1 : e.id = ab.id
    · rw [if_pos h1]
      exact hlinks e he
    · rw [if_neg h1]
      by_cases h2 : e.id = sv.id
      · rw [if_pos h2]
        constructor
        · intro hmem
          exact (mem_mergedEntry_links.mp hmem).2 h2
        · intro l hl
          rcases (mem_mergedEntry_links.mp hl).1 with hl' | hl'
          · exact (hlinks sv hsv).2 l hl'
          · exact (hlinks ab hab).2 l hl'
      · rw [if_neg h2]
        by_cases h3 : e.id ∈ (mergedEntry sv ab).links
        · rw [if_pos h3]
          constructor
          · intro hmem
            rcases List.mem_insert_iff.mp hmem with hh | hh
            · exact h2 hh
            · exact (hlinks e he).1 hh
          · intro l hl
            rcases List.mem_insert_iff.mp hl with hh | hh
            · rw [hh]
              exact hsvn
            · exact (hlinks e he).2 l hh
        · rw [if_neg h3]
          exact hlinks e he
  · intro a' ha' b' hb'
    obtain ⟨a, ha, rfl⟩ := List.mem_map.mp ha'
    obtain ⟨b, hb, rfl⟩ := List.mem_map.mp hb'
    rw [mergeTouch_id, mergeTouch_id, mergeTouch_links, mergeTouch_links]
    by_cases hA1 : a.id = ab.id
    · rw [if_pos hA1]
      intro hba
      have hsab : a.id ∈ b.links := hsym a ha b hb hba
      by_cases hB1 : b.id = ab.id
      · rw [if_pos hB1]
        exact hsab
      · rw [if_neg hB1]
        by_cases hB2 : b.id = sv.id
        · rw [if_pos hB2]
          have hbsv : b = sv := eq_of_id_eq hnd hb hsv hB2
          refine mem_mergedEntry_links.mpr ⟨Or.inl ?_, ?_⟩
          · rw [← hbsv]
            exact hsab
          · rw [hA1]
            exact Ne.symm hne
        · rw [if_neg hB2]
          by_cases hB3 : b.id ∈ (mergedEntry sv ab).links
          · rw [if_pos hB3]
            exact List.mem_insert_iff.mpr (Or.inr hsab)
          · rw [if_neg hB3]
            exact hsab
    · rw [if_neg hA1]
      by_cases hA2 : a.id = sv.id
      · rw [if_pos hA2]
        intro hba
        obtain ⟨hor, hbne⟩ := mem_mergedEntry_links.mp hba
        by_cases hB1 : b.id = ab.id
        · rw [if_pos hB1]
          have hbab : b = ab := eq_of_id_eq hnd hb hab hB1
          rcases hor with hbl | hbl
          · rw [hB1] at hbl
            have hsv_ab : sv.id ∈ ab.links := hsym sv hsv ab hab hbl
            rw [hA2, hbab]
            exact hsv_ab
          · exfalso
            rw [hbab] at hbl
            exact (hlinks ab hab).1 hbl
        · rw [if_neg hB1, if_neg hbne, if_pos hba]
          exact List.mem_insert_iff.mpr (Or.inl hA2)
      · rw [if_neg hA2]
        by_cases hA3 : a.id ∈ (mergedEntry sv ab).links
        · rw [if_pos hA3]
          intro hba
          rcases List.mem_insert_iff.mp hba with hbsv | hbl
          · have hB1 : ¬b.id = ab.id := by
              rw [hbsv]
              exact hne
            rw [if_neg hB1, if_pos hbsv]
            exact hA3
          · have hsab : a.id ∈ b.links := hsym a ha b hb hbl
            by_cases hB1 : b.id = ab.id
            · rw [if_pos hB1]
              exact hsab
            · rw [if_neg hB1]
              by_cases hB2 : b.id = sv.id
              · rw [if_pos hB2]
                exact hA3
              · rw [if_neg hB2]
                by_cases hB3 : b.id ∈ (mergedEntry sv ab).links
                · rw [if_pos hB3]
                  exact List.mem_insert_iff.mpr (Or.inr hsab)
                · rw [if_neg hB3]
                  exact hsab
        · rw [if_neg hA3]
          intro hba
          have hsab : a.id ∈ b.links := hsym a ha b hb hba
          by_cases hB1 : b.id = ab.id
          · rw [if_pos hB1]
            exact hsab
          · rw [if_neg hB1]
            by_cases hB2 : b.id = sv.id
            · rw [if_pos hB2]
              have hbsv : b = sv := eq_of_id_eq hnd hb hsv hB2
              refine mem_mergedEntry_links.mpr ⟨Or.inl ?_, hA2⟩
              rw [← hbsv]
              exact hsab
            · rw [if_neg hB2]
              by_cases hB3 : b.id ∈ (mergedEntry sv ab).links
              · rw [if_pos hB3]
                exact List.mem_insert_iff.mpr (Or.inr hsab)
              · rw [if_neg hB3]
                exact hsab

theorem WFe_mergeStep {nid : Nat} {es es' : List MemoryEntry}
    (h : mergeStep es = some es') (hwf : WFe nid es) : WFe nid es' := by
  unfold mergeStep at h
  cases hf : findMergeablePair es with
  | none => rw [hf] at h; cases h
  | some p =>
    obtain ⟨x, y⟩ := p
    rw [hf] at h
    dsimp only at h
    obtain ⟨hx, hy, hm⟩ := findMergeablePair_some hf
    by_cases himp : y.importance ≤ x.importance
    · rw [if_pos himp] at h
      cases h
      exact WFe_applyMerge hx hy hm hwf
    · rw [if_neg himp] at h
      cases h
      refine WFe_applyMerge hy hx ?_ hwf
      rw [mergeable_symm]
      exact hm

theorem WFe_mergeLoop {nid : Nat} (fuel : Nat) :
    ∀ es, WFe nid es → WFe nid (mergeLoop fuel es).1 := by
  induction fuel with
  | zero =>
    intro es h
    exact h
  | succ n ih =>
    intro es h
    rw [mergeLoop]
    cases hs : mergeStep es with
    | none => exact h
    | some es' => exact ih es' (WFe_mergeStep hs h)

theorem linkTouch_id (es : List MemoryEntry) (e : MemoryEntry) :
    (linkTouch es e).id = e.id := rfl

theorem WFe_linkPass {nid : Nat} {es : List MemoryEntry} (h : WFe nid es) :
    WFe nid (linkPass es) := by
  obtain ⟨hnd, hid, hrange, hlinks, hsym⟩ := h
  unfold linkPass
  refine ⟨nodup_ids_map _ (linkTouch_id es) hnd, ?_, ?_, ?_, ?_⟩
  · intro e' he'
    obtain ⟨e, he, rfl⟩ := List.mem_map.mp he'
    rw [linkTouch_id]
    exact hid e he
  · intro e' he'
    obtain ⟨e, he, rfl⟩ := List.mem_map.mp he'
    exact hrange e he
  · intro e' he'
    obtain ⟨e, he, rfl⟩ := List.mem_map.mp he'
    rw [linkTouch_id]
    constructor
    · intro hmem
      rcases mem_linkTouch_links.mp hmem with hh | ⟨x, _, hlk, hxid⟩
      · exact (hlinks e he).1 hh
      · exact (linkable_fields hlk).2.2.2 hxid.symm
    · intro l hl
      rcases mem_linkTouch_links.mp hl with hh | ⟨x, hx, _, hxid⟩
      · exact (hlinks e he).2 l hh
      · rw [← hxid]
        exact hid x hx
  · intro a' ha' b' hb'
    obtain ⟨a, ha, rfl⟩ := List.mem_map.mp ha'
    obtain ⟨b, hb, rfl⟩ := List.mem_map.mp hb'
    rw [linkTouch_id, linkTouch_id]
    intro hba
    rcases mem_linkTouch_links.mp hba with hh | ⟨x, hx, hlk, hxid⟩
    · exact mem_linkTouch_links.mpr (Or.inl (hsym a ha b hb hh))
    · have hxb : x = b := eq_of_id_eq hnd hx hb hxid
      rw [hxb] at hlk
      have hba' : linkable b a = true := by
        rw [linkable_symm]
        exact hlk
      exact mem_linkTouch_links.mpr (Or.inr ⟨a, ha, hba', rfl⟩)

theorem decayTouch_id (now : Nat) (e : MemoryEntry) :
    (decayTouch now e).id = e.id := by
  unfold decayTouch
  by_cases h : e.last_accessed_at + longWindow < now
  · rw [if_pos h]
  · rw [if_neg h]

theorem decayTouch_links (now : Nat) (e : MemoryEntry) :
    (decayTouch now e).links = e.links := by
  unfold decayTouch
  by_cases h : e.last_accessed_at + longWindow < now
  · rw [if_pos h]
  · rw [if_neg h]

theorem decayTouch_inRange (now : Nat) (e : MemoryEntry) (he : InRange e) :
    InRange (decayTouch now e) := by
  unfold decayTouch
  by_cases h : e.last_accessed_at + longWindow < now
  · rw [if_pos h]
    obtain ⟨h1, h2, h3, h4⟩ := he
    refine ⟨?_, ?_, h3, h4⟩
    · exact le_max_of_le_left (by norm_num [importanceFloor])
    · apply max_le
      · norm_num [importanceFloor]
      · have hmul : e.importance * decayFactor ≤ 1 * 1 :=
          mul_le_mul h2 (by norm_num [decayFactor]) (by norm_num [decayFactor]) (by norm_num)
        simpa using hmul
  · rw [if_neg h]
    exact he

theorem WFe_decayPass {nid now : Nat} {es : List MemoryEntry} (h : WFe nid es) :
    WFe nid (decayPass now es) := by
  obtain ⟨hnd, hid, hrange, hlinks, hsym⟩ := h
  unfold decayPass
  refine ⟨nodup_ids_map _ (decayTouch_id now) hnd, ?_, ?_, ?_, ?_⟩
  · intro e' he'
    obtain ⟨e, he, rfl⟩ := List.mem_map.mp he'
    rw [decayTouch_id]
    exact hid e he
  · intro e' he'
    obtain ⟨e, he, rfl⟩ := List.mem_map.mp he'
    exact decayTouch_inRange now e (hrange e he)
  · intro e' he'
    obtain ⟨e, he, rfl⟩ := List.mem_map.mp he'
    rw [decayTouch_id, decayTouch_links]
    exact hlinks e he
  · intro a' ha' b' hb'
    obtain ⟨a, ha, rfl⟩ := List.mem_map.mp ha'
    obtain ⟨b, hb, rfl⟩ := List.mem_map.mp hb'
    rw [decayTouch_id, decayTouch_id, decayTouch_links, decayTouch_links]
    exact hsym a ha b hb

theorem accessTouch_id (now : Nat) (ids : List Nat) (e : MemoryEntry) :
    (accessTouch now ids e).id = e.id := by
  unfold accessTouch
  by_cases h : e.id ∈ ids
  · rw [if_pos h]
  · rw [if_neg h]

theorem accessTouch_links (now : Nat) (ids : List Nat) (e : MemoryEntry) :
    (accessTouch now ids e).links = e.links := by
  unfold accessTouch
  by_cases h : e.id ∈ ids
  · rw [if_pos h]
  · rw [if_neg h]

theorem accessTouch_inRange (now : Nat) (ids : List Nat) (e : MemoryEntry)
    (he : InRange e) : InRange (accessTouch now ids e) := by
  unfold accessTouch
  by_cases h : e.id ∈ ids
  · rw [if_pos h]
    exact he
  · rw [if_neg h]
    exact he

theorem WF_recallOp (cfg : RecallConfig) (s : Store) (q : String) (k : Nat)
    (f : Filters) (h : WF s) : WF (recallOp cfg s q k f).2 := by
  obtain ⟨hnd, hid, hrange, hlinks, hsym⟩ := h
  refine ⟨nodup_ids_map _ (accessTouch_id s.now _) hnd, ?_, ?_, ?_, ?_⟩
  · intro e' he'
    obtain ⟨e, he, rfl⟩ := List.mem_map.mp he'
    rw [accessTouch_id]
    exact hid e he
  · intro e' he'
    obtain ⟨e, he, rfl⟩ := List.mem_map.mp he'
    exact accessTouch_inRange _ _ e (hrange e he)
  · intro e' he'
    obtain ⟨e, he, rfl⟩ := List.mem_map.mp he'
    rw [accessTouch_id, accessTouch_links]
    exact hlinks e he
  · intro a' ha' b' hb'
    obtain ⟨a, ha, rfl⟩ := List.mem_map.mp ha'
    obtain ⟨b, hb, rfl⟩ := List.mem_map.mp hb'
    rw [accessTouch_id, accessTouch_id, accessTouch_links, accessTouch_links]
    exact hsym a ha b hb

theorem WF_remember (s : Store) (c : String) (kd : Kind) (sh : ℚ) (h : WF s) :
    WF (remember s c kd sh).2 := by
  obtain ⟨hnd, hid, hrange, hlinks, hsym⟩ := h
  have hNid : (remember s c kd sh).1.id = s.nextId := rfl
  have hNlinks : (remember s c kd sh).1.links = [] := rfl
  refine ⟨?_, ?_, ?_, ?_, ?_⟩
  · show ((s.entries ++ [(remember s c kd sh).1]).map (·.id)).Nodup
    rw [List.map_append]
    refine List.Nodup.append hnd (List.nodup_singleton _) ?_
    intro a ha1 ha2
    obtain ⟨e, he, rfl⟩ := List.mem_map.mp ha1
    have h1 : e.id < s.nextId := hid e he
    have h2 : e.id = s.nextId := by
      simpa [hNid] using ha2
    omega
  · intro e' he'
    rcases List.mem_append.mp he' with he | he
    · exact Nat.lt_succ_of_lt (hid e' he)
    · have : e' = (remember s c kd sh).1 := by simpa using he
      rw [this, hNid]
      exact Nat.lt_succ_self _
  · intro e' he'
    rcases List.mem_append.mp he' with he | he
    · exact hrange e' he
    · have heq : e' = (remember s c kd sh).1 := by simpa using he
      rw [heq]
      exact ⟨le_clampQ _ _ _, clampQ_le _ _ _ (by norm_num),
        le_clampQ _ _ _, clampQ_le _ _ _ (by norm_num)⟩
  · intro e' he'
    rcases List.mem_append.mp he' with he | he
    · obtain ⟨h1, h2⟩ := hlinks e' he
      exact ⟨h1, fun l hl => Nat.lt_succ_of_lt (h2 l hl)⟩
    · have heq : e' = (remember s c kd sh).1 := by simpa using he
      rw [heq, hNlinks]
      exact ⟨List.not_mem_nil _, fun l hl => absurd hl (List.not_mem_nil l)⟩
  · intro a ha b hb
    rcases List.mem_append.mp ha with ha' | ha' <;>
      rcases List.mem_append.mp hb with hb' | hb'
    · exact hsym a ha' b hb'
    · intro hba
      have hbeq : b = (remember s c kd sh).1 := by simpa using hb'
      exfalso
      rw [hbeq, hNid] at hba
      exact absurd (hid a ha') (by have := (hlinks a ha').2 s.nextId hba; omega)
    · intro hba
      have haeq : a = (remember s c kd sh).1 := by simpa using ha'
      rw [haeq, hNlinks] at hba
      exact absurd hba (List.not_mem_nil _)
    · intro hba
      have haeq : a = (remember s c kd sh).1 := by simpa using ha'
      rw [haeq, hNlinks] at hba
      exact absurd hba (List.not_mem_nil _)

theorem WF_consolidate (s : Store) (h : WF s) : WF (consolidate s).1 := by
  show WFe s.nextId (decayPass s.now (linkPass (mergeLoop s.entries.length s.entries).1))
  exact WFe_decayPass (WFe_linkPass (WFe_mergeLoop _ _ h))

/-- The operations of the Memory Manager interface (§4.1) as observable
events on a store. -/
inductive MemOp where
  | rememberOp : String → Kind → ℚ → MemOp
  | recallQuery : String → Nat → Filters → MemOp
  | consolidateOp : MemOp
deriving Repr

/-- State transition of one Memory Manager operation. -/
def applyOp (s : Store) : MemOp → Store
  | .rememberOp c kd sh => (remember s c kd sh).2
  | .recallQuery q k f => (recallOp defaultRecallConfig s q k f).2
  | .consolidateOp => (consolidate s).1

theorem WF_applyOp (s : Store) (op : MemOp) (h : WF s) : WF (applyOp s op) := by
  cases op with
  | rememberOp c kd sh => exact WF_remember s c kd sh h
  | recallQuery q k f => exact WF_recallOp defaultRecallConfig s q k f h
  | consolidateOp => exact WF_consolidate s h

theorem WF_foldl (ops : List MemOp) : ∀ s, WF s → WF (ops.foldl applyOp s) := by
  induction ops with
  | nil =>
    intro s h
    exact h
  | cons op rest ih =>
    intro s h
    rw [List.foldl_cons]
    exact ih _ (WF_applyOp s op h)

/-- **C2.** For every `MemoryEntry` reachable at any observable point of
any sequence of `remember`, `recall`, and `consolidate` operations from a
well-formed store, importance stays in `[0,1]`, sentiment stays in
`[-1,1]`, and the links relation is symmetric: if A's links contain B then
B's links contain A. -/
theorem memoryEntry_invariants (s₀ : Store) (ops : List MemOp) (h : WF s₀) :
    (∀ e ∈ (ops.foldl applyOp s₀).entries,
      0 ≤ e.importance ∧ e.importance ≤ 1 ∧ -1 ≤ e.sentiment ∧ e.sentiment ≤ 1) ∧
    (∀ a ∈ (ops.foldl applyOp s₀).entries, ∀ b ∈ (ops.foldl applyOp s₀).entries,
      b.id ∈ a.links → a.id ∈ b.links) := by
  obtain ⟨-, -, hrange, -, hsym⟩ := WF_foldl ops s₀ h
  exact ⟨fun e he => hrange e he, hsym⟩

/-- Witness for C2 at a concrete input: the empty store is well-formed and
the invariants hold after a remember followed by a consolidation. -/
theorem memoryEntry_invariants_witness :
    WF emptyStore ∧
    ((∀ e ∈ (([MemOp.rememberOp "hello" Kind.semantic (1/2),
        MemOp.consolidateOp]).foldl applyOp emptyStore).entries,
      0 ≤ e.importance ∧ e.importance ≤ 1 ∧ -1 ≤ e.sentiment ∧ e.sentiment ≤ 1) ∧
    (∀ a ∈ (([MemOp.rememberOp "hello" Kind.semantic (1/2),
        MemOp.consolidateOp]).foldl applyOp emptyStore).entries,
      ∀ b ∈ (([MemOp.rememberOp "hello" Kind.semantic (1/2),
        MemOp.consolidateOp]).foldl applyOp emptyStore).entries,
      b.id ∈ a.links → a.id ∈ b.links)) :=
  ⟨by decide, memoryEntry_invariants emptyStore
    [MemOp.rememberOp "hello" Kind.semantic (1/2), MemOp.consolidateOp] (by decide)⟩

/-! ## Personality Engine (§4.2), modelled from the spec -/

/-- Modelled from the spec: the fixed set of five named trait scalars of
§3, matching the five named fields of the `Personality` interface in
`frontend/src/services/ModelService.ts` and of `PersonalityDisplayProps`. -/
structure Traits where
  openness : ℚ
  conscientiousness : ℚ
  extraversion : ℚ
  agreeableness : ℚ
  neuroticism : ℚ
deriving DecidableEq, Repr

/-- Modelled from the spec: the mood scalars valence, arousal, dominance
of §3, matching the `Emotion` interface in `ModelService.ts`. -/
structure Mood where
  valence : ℚ
  arousal : ℚ
  dominance : ℚ
deriving DecidableEq, Repr

/-- Modelled from the spec: `PersonalityState` of §3 — five traits, the
mood, and a bounded history of past mood snapshots (trend display only). -/
structure PersonalityState where
  traits : Traits
  mood : Mood
  history : List Mood
deriving DecidableEq, Repr

/-- Modelled from the spec: the per-turn signal of §4.2, carrying a
sentiment score and a topic-engagement score. -/
structure Signal where
  sentiment : ℚ
  engagement : ℚ
deriving DecidableEq, Repr

/-- Modelled from the spec: trait learning rate (configuration). -/
def learningRate : ℚ := 1/50

/-- Modelled from the spec: the small maximum per-turn trait delta of
§4.2 (momentum). -/
def maxDelta : ℚ := 1/20

/-- Modelled from the spec: the fixed mood smoothing factor of §4.2. -/
def smoothing : ℚ := 3/10

/-- Modelled from the spec: the configurable idle window of §3 after
which mood decays toward baseline. -/
def idleWindow : Nat := 300

/-- Modelled from the spec: bound on the mood history length (§3). -/
def historyBound : Nat := 50

/-- Modelled from the spec: §4.2 trait delta
`clamp(signal_component * learning_rate, -max_delta, max_delta)`. -/
def traitDelta (comp : ℚ) : ℚ :=
  clampQ (-maxDelta) maxDelta (comp * learningRate)

/-- One trait update: the clamped delta applied additively, then clamped
to `[0,1]` (§4.2). -/
def stepTrait (t comp : ℚ) : ℚ :=
  clampQ 0 1 (t + traitDelta comp)

/-- Which signal component drives each trait (a modelling choice; the
spec fixes only the delta formula of §4.2). -/
def updateTraits (sig : Signal) (t : Traits) : Traits :=
  { openness := stepTrait t.openness sig.engagement
    conscientiousness := stepTrait t.conscientiousness sig.engagement
    extraversion := stepTrait t.extraversion sig.engagement
    agreeableness := stepTrait t.agreeableness sig.sentiment
    neuroticism := stepTrait t.neuroticism (-sig.sentiment) }

/-- The instantaneous mood suggested by a signal, clamped to `[0,1]`. -/
def signalMood (sig : Signal) : Mood :=
  { valence := clampQ 0 1 ((sig.sentiment + 1) / 2)
    arousal := clampQ 0 1 sig.engagement
    dominance := clampQ 0 1 sig.engagement }

/-- Blend of previous mood with the instantaneous signal by the fixed
smoothing factor, clamped to `[0,1]` (§4.2). -/
def blend (m target : ℚ) : ℚ :=
  clampQ 0 1 ((1 - smoothing) * m + smoothing * target)

/-- Mood component of `update` (§4.2). -/
def updateMood (sig : Signal) (m : Mood) : Mood :=
  { valence := blend m.valence (signalMood sig).valence
    arousal := blend m.arousal (signalMood sig).arousal
    dominance := blend m.dominance (signalMood sig).dominance }

/-- Modelled from the spec: `update(signal)` of §4.2 — a total function
over the clamped value space. -/
def update (sig : Signal) (s : PersonalityState) : PersonalityState :=
  { traits := updateTraits sig s.traits
    mood := updateMood sig s.mood
    history := (s.mood :: s.history).take historyBound }

/-- Modelled from the spec: the trait-derived mood baseline of §3 (a
modelling choice of formula; any trait-derived point of `[0,1]³`). -/
def baseline (t : Traits) : Mood :=
  { valence := (t.agreeableness + (1 - t.neuroticism)) / 2
    arousal := t.extraversion
    dominance := (t.conscientiousness + t.extraversion) / 2 }

/-- Fraction of the gap to the baseline closed by a decay tick:
proportional to elapsed idle time, capped at 1 (half the gap at one idle
window). -/
def decayRate (elapsed : Nat) : ℚ :=
  min 1 ((elapsed : ℚ) / (2 * idleWindow))

/-- One mood component moved toward its baseline by rate `r`. -/
def decayComponent (r m b : ℚ) : ℚ :=
  m + r * (b - m)

/-- Modelled from the spec: `decay_tick(elapsed)` of §4.2 — moves mood
toward the trait-derived baseline proportionally to elapsed idle time. -/
def decay_tick (elapsed : Nat) (s : PersonalityState) : PersonalityState :=
  { s with mood :=
    { valence := decayComponent (decayRate elapsed) s.mood.valence (baseline s.traits).valence
      arousal := decayComponent (decayRate elapsed) s.mood.arousal (baseline s.traits).arousal
      dominance := decayComponent (decayRate elapsed) s.mood.dominance
        (baseline s.traits).dominance } }

/-- All five traits in `[0,1]` (§3). -/
def TraitsIn01 (t : Traits) : Prop :=
  (0 ≤ t.openness ∧ t.openness ≤ 1) ∧
  (0 ≤ t.conscientiousness ∧ t.conscientiousness ≤ 1) ∧
  (0 ≤ t.extraversion ∧ t.extraversion ≤ 1) ∧
  (0 ≤ t.agreeableness ∧ t.agreeableness ≤ 1) ∧
  (0 ≤ t.neuroticism ∧ t.neuroticism ≤ 1)

instance : DecidablePred TraitsIn01 := fun t => by
  unfold TraitsIn01
  infer_instance

/-- All three mood scalars in `[0,1]` (§3). -/
def MoodIn01 (m : Mood) : Prop :=
  (0 ≤ m.valence ∧ m.valence ≤ 1) ∧
  (0 ≤ m.arousal ∧ m.arousal ≤ 1) ∧
  (0 ≤ m.dominance ∧ m.dominance ≤ 1)

instance : DecidablePred MoodIn01 := fun m => by
  unfold MoodIn01
  infer_instance

/-- Every per-trait change between two trait vectors is bounded by
`maxDelta`. -/
def DeltaBounded (t t' : Traits) : Prop :=
  |t'.openness - t.openness| ≤ maxDelta ∧
  |t'.conscientiousness - t.conscientiousness| ≤ maxDelta ∧
  |t'.extraversion - t.extraversion| ≤ maxDelta ∧
  |t'.agreeableness - t.agreeableness| ≤ maxDelta ∧
  |t'.neuroticism - t.neuroticism| ≤ maxDelta

/-- A sequence of `update` calls applied in order. -/
def applyUpdates (sigs : List Signal) (s : PersonalityState) : PersonalityState :=
  sigs.foldl (fun st sig => update sig st) s

/-- A neutral initial personality. -/
def defaultPersonality : PersonalityState :=
  { traits := ⟨1/2, 1/2, 1/2, 1/2, 1/2⟩
    mood := ⟨1/2, 1/2, 1/2⟩
    history := [] }

theorem stepTrait_mem (t comp : ℚ) : 0 ≤ stepTrait t comp ∧ stepTrait t comp ≤ 1 :=
  ⟨le_clampQ _ _ _, clampQ_le _ _ _ (by norm_num)⟩

theorem abs_traitDelta_le (comp : ℚ) : |traitDelta comp| ≤ maxDelta := by
  rw [abs_le]
  constructor
  · exact le_clampQ _ _ _
  · exact clampQ_le _ _ _ (by norm_num [maxDelta])

theorem abs_stepTrait_sub_le (t comp : ℚ) (h0 : 0 ≤ t) (h1 : t ≤ 1) :
    |stepTrait t comp - t| ≤ maxDelta := by
  have hd := abs_traitDelta_le comp
  rw [abs_le] at hd ⊢
  obtain ⟨hd1, hd2⟩ := hd
  have hmd : (0 : ℚ) ≤ maxDelta := by norm_num [maxDelta]
  unfold stepTrait clampQ
  constructor
  · have hlow : t - maxDelta ≤ min 1 (t + traitDelta comp) :=
      le_min (by linarith) (by linarith)
    have hge : t - maxDelta ≤ max 0 (min 1 (t + traitDelta comp)) :=
      le_trans hlow (le_max_right _ _)
    linarith
  · have hup : max 0 (min 1 (t + traitDelta comp)) ≤ t + maxDelta :=
      max_le (by linarith) (le_trans (min_le_right _ _) (by linarith))
    linarith

theorem TraitsIn01_update (sig : Signal) (s : PersonalityState) :
    TraitsIn01 (update sig s).traits :=
  ⟨stepTrait_mem _ _, stepTrait_mem _ _, stepTrait_mem _ _,
    stepTrait_mem _ _, stepTrait_mem _ _⟩

theorem TraitsIn01_applyUpdates (sigs : List Signal) :
    ∀ s, TraitsIn01 s.traits → TraitsIn01 (applyUpdates sigs s).traits := by
  induction sigs with
  | nil =>
    intro s h
    exact h
  | cons sig rest ih =>
    intro s h
    show TraitsIn01 ((sig :: rest).foldl (fun st sg => update sg st) s).traits
    rw [List.foldl_cons]
    exact ih (update sig s) (TraitsIn01_update sig s)

theorem deltaBounded_update (sig : Signal) (s : PersonalityState)
    (h : TraitsIn01 s.traits) : DeltaBounded s.traits (update sig s).traits := by
  obtain ⟨⟨a1, a2⟩, ⟨b1, b2⟩, ⟨c1, c2⟩, ⟨d1, d2⟩, ⟨e1, e2⟩⟩ := h
  exact ⟨abs_stepTrait_sub_le _ _ a1 a2, abs_stepTrait_sub_le _ _ b1 b2,
    abs_stepTrait_sub_le _ _ c1 c2, abs_stepTrait_sub_le _ _ d1 d2,
    abs_stepTrait_sub_le _ _ e1 e2⟩

/-- **C5.** From any initial traits in `[0,1]` and any sequence of
`update` calls with arbitrary (including extreme) signals, after every
call each trait remains in `[0,1]`, and each call changes each trait by
at most `maxDelta` in absolute value, the delta being
`clamp(signal_component * learning_rate, -max_delta, max_delta)` (the
definition of `traitDelta`/`stepTrait`). -/
theorem personality_trait_bounding (s₀ : PersonalityState) (h : TraitsIn01 s₀.traits)
    (sigs : List Signal) (n : Nat) :
    TraitsIn01 (applyUpdates (sigs.take n) s₀).traits ∧
    ∀ sig : Signal, DeltaBounded (applyUpdates (sigs.take n) s₀).traits
      (update sig (applyUpdates (sigs.take n) s₀)).traits := by
  have ht := TraitsIn01_applyUpdates (sigs.take n) s₀ h
  exact ⟨ht, fun sig => deltaBounded_update sig _ ht⟩

/-- Witness for C5 at a concrete input: an extreme signal applied to the
neutral state. -/
theorem personality_trait_bounding_witness :
    TraitsIn01 defaultPersonality.traits ∧
    (TraitsIn01 (applyUpdates (([⟨1, 1⟩] : List Signal).take 1) defaultPersonality).traits ∧
     ∀ sig : Signal,
       DeltaBounded (applyUpdates (([⟨1, 1⟩] : List Signal).take 1) defaultPersonality).traits
         (update sig (applyUpdates (([⟨1, 1⟩] : List Signal).take 1)
           defaultPersonality)).traits) :=
  ⟨by norm_num [TraitsIn01, defaultPersonality],
   personality_trait_bounding defaultPersonality
     (by norm_num [TraitsIn01, defaultPersonality]) [⟨1, 1⟩] 1⟩

theorem decayRate_idleWindow : decayRate idleWindow = 1/2 := by
  norm_num [decayRate, idleWindow]

theorem decayComponent_sub (m b : ℚ) :
    decayComponent (1/2) m b - b = (1/2) * (m - b) := by
  unfold decayComponent
  ring

theorem decay_closer (m b : ℚ) (h : m ≠ b) :
    |decayComponent (1/2) m b - b| < |m - b| := by
  rw [decayComponent_sub, abs_mul]
  have h2 : |(1 : ℚ)/2| = 1/2 := by norm_num
  rw [h2]
  have hpos : 0 < |m - b| := abs_pos.mpr (sub_ne_zero.mpr h)
  linarith

theorem decay_no_overshoot (m b : ℚ) :
    (decayComponent (1/2) m b - b) * (m - b) ≥ 0 := by
  rw [decayComponent_sub]
  nlinarith [mul_self_nonneg (m - b)]

/-- **C6.** `decay_tick` at one idle window moves each differing mood
component strictly closer to the trait-derived baseline, and no component
ever moves past the baseline (the signed gap never changes sign). -/
theorem mood_decay_toward_baseline (s : PersonalityState) :
    ((s.mood.valence ≠ (baseline s.traits).valence →
      |(decay_tick idleWindow s).mood.valence - (baseline s.traits).valence| <
        |s.mood.valence - (baseline s.traits).valence|) ∧
      ((decay_tick idleWindow s).mood.valence - (baseline s.traits).valence) *
        (s.mood.valence - (baseline s.traits).valence) ≥ 0) ∧
    ((s.mood.arousal ≠ (baseline s.traits).arousal →
      |(decay_tick idleWindow s).mood.arousal - (baseline s.traits).arousal| <
        |s.mood.arousal - (baseline s.traits).arousal|) ∧
      ((decay_tick idleWindow s).mood.arousal - (baseline s.traits).arousal) *
        (s.mood.arousal - (baseline s.traits).arousal) ≥ 0) ∧
    ((s.mood.dominance ≠ (baseline s.traits).dominance →
      |(decay_tick idleWindow s).mood.dominance - (baseline s.traits).dominance| <
        |s.mood.dominance - (baseline s.traits).dominance|) ∧
      ((decay_tick idleWindow s).mood.dominance - (baseline s.traits).dominance) *
        (s.mood.dominance - (baseline s.traits).dominance) ≥ 0) := by
  have hv : (decay_tick idleWindow s).mood.valence =
      decayComponent (1/2) s.mood.valence (baseline s.traits).valence := by
    show decayComponent (decayRate idleWindow) s.mood.valence (baseline s.traits).valence = _
    rw [decayRate_idleWindow]
  have ha : (decay_tick idleWindow s).mood.arousal =
      decayComponent (1/2) s.mood.arousal (baseline s.traits).arousal := by
    show decayComponent (decayRate idleWindow) s.mood.arousal (baseline s.traits).arousal = _
    rw [decayRate_idleWindow]
  have hd : (decay_tick idleWindow s).mood.dominance =
      decayComponent (1/2) s.mood.dominance (baseline s.traits).dominance := by
    show decayComponent (decayRate idleWindow) s.mood.dominance (baseline s.traits).dominance = _
    rw [decayRate_idleWindow]
  rw [hv, ha, hd]
  exact ⟨⟨fun h => decay_closer _ _ h, decay_no_overshoot _ _⟩,
    ⟨fun h => decay_closer _ _ h, decay_no_overshoot _ _⟩,
    ⟨fun h => decay_closer _ _ h, decay_no_overshoot _ _⟩⟩

/-- A state whose mood differs from its trait-derived baseline in every
component, used as a concrete witness input. -/
def moodTestState : PersonalityState :=
  { traits := ⟨1/2, 1/2, 1/2, 1/2, 1/2⟩
    mood := ⟨1, 0, 1⟩
    history := [] }

/-- Witness for C6 at a concrete input: a mood strictly away from
baseline gets strictly closer on a one-idle-window tick. -/
theorem mood_decay_toward_baseline_witness :
    moodTestState.mood.valence ≠ (baseline moodTestState.traits).valence ∧
    |(decay_tick idleWindow moodTestState).mood.valence -
        (baseline moodTestState.traits).valence| <
      |moodTestState.mood.valence - (baseline moodTestState.traits).valence| :=
  ⟨by norm_num [moodTestState, baseline],
   (mood_decay_toward_baseline moodTestState).1.1
     (by norm_num [moodTestState, baseline])⟩

/-! ## The personality data shape (§3, `ModelService.ts`) -/

/-- The `PersonalityTrait` record of
`frontend/src/services/ModelService.ts` (value, name, description). -/
structure PersonalityTrait where
  value : ℚ
  name : String
  description : String
deriving DecidableEq, Repr

/-- The `Personality` interface of `ModelService.ts`: exactly the five
named traits openness, conscientiousness, extraversion, agreeableness,
neuroticism. -/
structure Personality where
  openness : PersonalityTrait
  conscientiousness : PersonalityTrait
  extraversion : PersonalityTrait
  agreeableness : PersonalityTrait
  neuroticism : PersonalityTrait
deriving DecidableEq, Repr

/-- The `Emotion` interface of `ModelService.ts`: exactly the three mood
scalars valence, arousal, dominance. -/
structure Emotion where
  valence : ℚ
  arousal : ℚ
  dominance : ℚ
deriving DecidableEq, Repr

/-- Projection of the engine's state onto the frontend `Personality`
interface. -/
def toPersonality (s : PersonalityState) : Personality :=
  { openness := ⟨s.traits.openness, "openness", "Openness to experience"⟩
    conscientiousness := ⟨s.traits.conscientiousness, "conscientiousness", "Conscientiousness"⟩
    extraversion := ⟨s.traits.extraversion, "extraversion", "Extraversion"⟩
    agreeableness := ⟨s.traits.agreeableness, "agreeableness", "Agreeableness"⟩
    neuroticism := ⟨s.traits.neuroticism, "neuroticism", "Neuroticism"⟩ }

/-- Projection of the engine's state onto the frontend `Emotion`
interface. -/
def toEmotion (s : PersonalityState) : Emotion :=
  ⟨s.mood.valence, s.mood.arousal, s.mood.dominance⟩

/-- The Personality Engine operations of §4.2 as observable events. -/
inductive POp where
  | upd : Signal → POp
  | tick : Nat → POp
deriving Repr

/-- State transition of one Personality Engine operation. -/
def applyPOp (s : PersonalityState) : POp → PersonalityState
  | .upd sig => update sig s
  | .tick e => decay_tick e s

/-- Traits and mood all in `[0,1]` (§3). -/
def PSIn01 (s : PersonalityState) : Prop :=
  TraitsIn01 s.traits ∧ MoodIn01 s.mood

instance : DecidablePred PSIn01 := fun s => by
  unfold PSIn01
  infer_instance

theorem blend_mem (m target : ℚ) : 0 ≤ blend m target ∧ blend m target ≤ 1 :=
  ⟨le_clampQ _ _ _, clampQ_le _ _ _ (by norm_num)⟩

theorem PSIn01_update (sig : Signal) (s : PersonalityState) :
    PSIn01 (update sig s) :=
  ⟨TraitsIn01_update sig s, blend_mem _ _, blend_mem _ _, blend_mem _ _⟩

theorem decayRate_mem (e : Nat) : 0 ≤ decayRate e ∧ decayRate e ≤ 1 := by
  unfold decayRate
  constructor
  · apply le_min
    · norm_num
    · positivity
  · exact min_le_left _ _

theorem baseline_mem (t : Traits) (h : TraitsIn01 t) : MoodIn01 (baseline t) := by
  obtain ⟨⟨_, _⟩, ⟨b1, b2⟩, ⟨c1, c2⟩, ⟨d1, d2⟩, ⟨e1, e2⟩⟩ := h
  unfold baseline MoodIn01
  refine ⟨⟨?_, ?_⟩, ⟨c1, c2⟩, ⟨?_, ?_⟩⟩ <;> simp only [] <;> linarith

theorem decayComponent_mem (r m b : ℚ) (hr0 : 0 ≤ r) (hr1 : r ≤ 1)
    (hm0 : 0 ≤ m) (hm1 : m ≤ 1) (hb0 : 0 ≤ b) (hb1 : b ≤ 1) :
    0 ≤ decayComponent r m b ∧ decayComponent r m b ≤ 1 := by
  unfold decayComponent
  constructor <;> nlinarith

theorem PSIn01_decay_tick (e : Nat) (s : PersonalityState) (h : PSIn01 s) :
    PSIn01 (decay_tick e s) := by
  obtain ⟨ht, ⟨v1, v2⟩, ⟨a1, a2⟩, ⟨d1, d2⟩⟩ := h
  obtain ⟨⟨bv1, bv2⟩, ⟨ba1, ba2⟩, ⟨bd1, bd2⟩⟩ := baseline_mem s.traits ht
  obtain ⟨hr0, hr1⟩ := decayRate_mem e
  exact ⟨ht,
    decayComponent_mem _ _ _ hr0 hr1 v1 v2 bv1 bv2,
    decayComponent_mem _ _ _ hr0 hr1 a1 a2 ba1 ba2,
    decayComponent_mem _ _ _ hr0 hr1 d1 d2 bd1 bd2⟩

theorem PSIn01_foldl (ops : List POp) : ∀ s, PSIn01 s → PSIn01 (ops.foldl applyPOp s) := by
  induction ops with
  | nil =>
    intro s h
    exact h
  | cons op rest ih =>
    intro s h
    rw [List.foldl_cons]
    cases op with
    | upd sig => exact ih _ (PSIn01_update sig s)
    | tick e => exact ih _ (PSIn01_decay_tick e s h)

/-- **C8.** A `PersonalityState` consists of exactly the five named
traits openness, conscientiousness, extraversion, agreeableness,
neuroticism and a mood of exactly the three scalars valence, arousal,
dominance (the fields of `Personality` and `Emotion` in
`ModelService.ts`); for every state reachable by the engine's operations
from an in-range state, each of those eight scalars lies in `[0,1]`. -/
theorem personality_shape_bounds (s₀ : PersonalityState) (h : PSIn01 s₀)
    (ops : List POp) :
    (0 ≤ (toPersonality (ops.foldl applyPOp s₀)).openness.value ∧
      (toPersonality (ops.foldl applyPOp s₀)).openness.value ≤ 1) ∧
    (0 ≤ (toPersonality (ops.foldl applyPOp s₀)).conscientiousness.value ∧
      (toPersonality (ops.foldl applyPOp s₀)).conscientiousness.value ≤ 1) ∧
    (0 ≤ (toPersonality (ops.foldl applyPOp s₀)).extraversion.value ∧
      (toPersonality (ops.foldl applyPOp s₀)).extraversion.value ≤ 1) ∧
    (0 ≤ (toPersonality (ops.foldl applyPOp s₀)).agreeableness.value ∧
      (toPersonality (ops.foldl applyPOp s₀)).agreeableness.value ≤ 1) ∧
    (0 ≤ (toPersonality (ops.foldl applyPOp s₀)).neuroticism.value ∧
      (toPersonality (ops.foldl applyPOp s₀)).neuroticism.value ≤ 1) ∧
    (0 ≤ (toEmotion (ops.foldl applyPOp s₀)).valence ∧
      (toEmotion (ops.foldl applyPOp s₀)).valence ≤ 1) ∧
    (0 ≤ (toEmotion (ops.foldl applyPOp s₀)).arousal ∧
      (toEmotion (ops.foldl applyPOp s₀)).arousal ≤ 1) ∧
    (0 ≤ (toEmotion (ops.foldl applyPOp s₀)).dominance ∧
      (toEmotion (ops.foldl applyPOp s₀)).dominance ≤ 1) := by
  obtain ⟨⟨h1, h2, h3, h4, h5⟩, hm1, hm2, hm3⟩ := PSIn01_foldl ops s₀ h
  exact ⟨h1, h2, h3, h4, h5, hm1, hm2, hm3⟩

/-- Witness for C8 at a concrete input: the neutral state, one extreme
update and one decay tick. -/
theorem personality_shape_bounds_witness :
    PSIn01 defaultPersonality ∧
    (0 ≤ (toPersonality ([POp.upd ⟨1, 1⟩, POp.tick idleWindow].foldl applyPOp
        defaultPersonality)).openness.value ∧
      (toPersonality ([POp.upd ⟨1, 1⟩, POp.tick idleWindow].foldl applyPOp
        defaultPersonality)).openness.value ≤ 1) :=
  ⟨by norm_num [PSIn01, TraitsIn01, MoodIn01, defaultPersonality],
   (personality_shape_bounds defaultPersonality
     (by norm_num [PSIn01, TraitsIn01, MoodIn01, defaultPersonality])
     [POp.upd ⟨1, 1⟩, POp.tick idleWindow]).1⟩

/-! ## Frontend: `App.tsx` -/

/-- Message status in `App.tsx` (`'sending' | 'sent' | 'error'`). -/
inductive MsgStatus where
  | sending
  | sent
  | errorStatus
deriving DecidableEq, Repr

/-- Message type in `App.tsx` (`'text' | 'image'`). -/
inductive MsgType where
  | text
  | image
deriving DecidableEq, Repr

/-- The `imageData` payload of a message in `App.tsx`. -/
structure ImageData where
  base64 : String
  prompt : String
  generationTime : Nat
deriving DecidableEq, Repr

/-- The `Message` interface of `App.tsx`.  `crypto.randomUUID()` ids are
modelled as numbers, ISO timestamps as numbers. -/
structure Message where
  id : Nat
  content : String
  isUser : Bool
  timestamp : Nat
  status : Option MsgStatus
  msgType : Option MsgType
  imageData : Option ImageData
deriving DecidableEq, Repr

/-- The component state of `App` touched by `handleSubmit`: the message
list, the loading flag, and the error notice. -/
structure AppState where
  messages : List Message
  isLoading : Bool
  error : String
deriving DecidableEq, Repr

/-- Outcome of the backend chat call `modelService.sendMessage`. -/
inductive ChatOutcome where
  | success : String → ChatOutcome
  | failure : ChatOutcome
deriving DecidableEq, Repr

/-- JS `String.prototype.trim()`, modelled directly on the character
list: drop leading and trailing whitespace. -/
def trimStr (s : String) : String :=
  ⟨((s.data.dropWhile Char.isWhitespace).reverse.dropWhile Char.isWhitespace).reverse⟩

/-- JS `String.prototype.startsWith(pre)`, modelled on the character
list. -/
def startsWithStr (s pre : String) : Bool :=
  s.data.take pre.data.length == pre.data

/-- `handleSubmit` of `App.tsx` as a pure transition on the component
state.  `newId` and `aiId` model the fresh `crypto.randomUUID()` values,
`now` the current timestamp, and `outcome` the result of the awaited
backend call (the catch block handles its failure; the finally block
clears the loading flag). -/
def handleSubmit (st : AppState) (content : String) (newId aiId now : Nat)
    (outcome : ChatOutcome) : AppState :=
  if trimStr content = "" then st
  else
    let userMessage : Message :=
      { id := newId, content := content, isUser := true, timestamp := now
        status := some .sending, msgType := none, imageData := none }
    let msgs1 := st.messages ++ [userMessage]
    if startsWithStr content "Generated image:" then
      let prompt := trimStr (content.replace "Generated image:" "")
      let msgs2 := msgs1.map fun m =>
        if m.id = userMessage.id then
          { m with status := some .sent, msgType := some .text }
        else m
      let aiMessage : Message :=
        { id := aiId, content := prompt, isUser := false, timestamp := now
          status := some .sent, msgType := some .image
          imageData := some ⟨(content.splitOn ",").getD 1 "", prompt, 0⟩ }
      { messages := msgs2 ++ [aiMessage], isLoading := false, error := "" }
    else
      match outcome with
      | .success response =>
        let msgs2 := msgs1.map fun m =>
          if m.id = userMessage.id then { m with status := some .sent } else m
        let aiMessage : Message :=
          { id := aiId, content := response, isUser := false, timestamp := now
            status := some .sent, msgType := some .text, imageData := none }
        { messages := msgs2 ++ [aiMessage], isLoading := false, error := "" }
      | .failure =>
        { messages := msgs1.map fun m =>
            if m.id = userMessage.id then { m with status := some .errorStatus } else m
          isLoading := false
          error := "Failed to send message" }

theorem map_eq_self_of_fixed {α : Type} (f : α → α) (l : List α)
    (h : ∀ a ∈ l, f a = a) : l.map f = l := by
  induction l with
  | nil => rfl
  | cons x xs ih =>
    rw [List.map_cons, h x (List.mem_cons_self _ _),
      ih fun a ha => h a (List.mem_cons_of_mem _ ha)]

/-- **C7.** When the backend chat call fails during a regular
conversational turn, `handleSubmit` catches the failure: the submitted
user message is marked with status `'error'`, the error notice is set,
the loading flag is cleared, no AI response message is added, and the
previously displayed messages are otherwise unchanged. -/
theorem handleSubmit_failure (st : AppState) (content : String) (newId aiId now : Nat)
    (htrim : ¬trimStr content = "")
    (himg : startsWithStr content "Generated image:" = false)
    (hfresh : ∀ m ∈ st.messages, m.id ≠ newId) :
    (handleSubmit st content newId aiId now .failure).messages =
      st.messages ++
        [{ id := newId, content := content, isUser := true, timestamp := now
           status := some .errorStatus, msgType := none, imageData := none }] ∧
    (handleSubmit st content newId aiId now .failure).error = "Failed to send message" ∧
    (handleSubmit st content newId aiId now .failure).isLoading = false := by
  unfold handleSubmit
  rw [if_neg htrim, if_neg (by simp [himg])]
  dsimp only
  refine ⟨?_, rfl, rfl⟩
  rw [List.map_append]
  congr 1
  · exact map_eq_self_of_fixed _ _ fun m hm => if_neg (hfresh m hm)
  · rw [List.map_singleton, if_pos rfl]

/-- Witness for C7 at a concrete input. -/
theorem handleSubmit_failure_witness :
    (¬(trimStr "hello" = "") ∧ startsWithStr "hello" "Generated image:" = false) ∧
    (handleSubmit ⟨[], false, ""⟩ "hello" 0 1 5 .failure).error =
      "Failed to send message" :=
  ⟨⟨by decide, by decide⟩,
   (handleSubmit_failure ⟨[], false, ""⟩ "hello" 0 1 5 (by decide) (by decide)
     (by intro m hm; cases hm)).2.1⟩

/-! ## Frontend: `ModelService.ts` -/

/-- The environment read by the private constructor
(`import.meta.env.VITE_API_URL` / `VITE_WS_URL`). -/
structure Env where
  apiUrl : Option String
  wsUrlVar : Option String
deriving DecidableEq, Repr

/-- The fields of a `ModelService` instance set by the private
constructor. -/
structure ModelServiceState where
  baseUrl : String
  wsUrl : String
  currentTextModel : Option String
  currentImageModel : Option String
deriving DecidableEq, Repr

/-- The private `ModelService` constructor. -/
def mkModelService (env : Env) : ModelServiceState :=
  { baseUrl := env.apiUrl.getD "http://localhost:8000/api"
    wsUrl := env.wsUrlVar.getD "ws://localhost:8000/ws"
    currentTextModel := none
    currentImageModel := none }

/-- `ModelService.getInstance()`: returns the static instance, creating
it on the first call only; the static field is the second component. -/
def getInstance (env : Env) (inst : Option ModelServiceState) :
    ModelServiceState × Option ModelServiceState :=
  match inst with
  | some i => (i, some i)
  | none => (mkModelService env, some (mkModelService env))

/-- **C9.** `ModelService.getInstance()` is idempotent: a second call
returns the same instance as the first (the instance is created at most
once), so the `baseUrl` and `wsUrl` observed by all callers are
identical. -/
theorem getInstance_idempotent (env : Env) (inst : Option ModelServiceState) :
    (getInstance env (getInstance env inst).2).1 = (getInstance env inst).1 ∧
    (getInstance env (getInstance env inst).2).2 = (getInstance env inst).2 ∧
    ((getInstance env (getInstance env inst).2).1).baseUrl =
      ((getInstance env inst).1).baseUrl ∧
    ((getInstance env (getInstance env inst).2).1).wsUrl =
      ((getInstance env inst).1).wsUrl := by
  cases inst with
  | some i => exact ⟨rfl, rfl, rfl, rfl⟩
  | none => exact ⟨rfl, rfl, rfl, rfl⟩

/-- Witness for C9 at a concrete input. -/
theorem getInstance_idempotent_witness :
    (getInstance ⟨none, none⟩ (getInstance ⟨none, none⟩ none).2).1 =
      (getInstance ⟨none, none⟩ none).1 :=
  (getInstance_idempotent ⟨none, none⟩ none).1

/-! ## Frontend: `MessageInput.tsx` -/

/-- `MAX_LENGTH` of `MessageInput.tsx`. -/
def MAX_LENGTH : Nat := 2000

/-- `handleChange` of `MessageInput.tsx`: accept the new value only when
its length is within `MAX_LENGTH`. -/
def handleChange (message newValue : String) : String :=
  if newValue.length ≤ MAX_LENGTH then newValue else message

/-- `handleSend` of `MessageInput.tsx`: invoke `onSendMessage` with the
trimmed message only when it is nonempty and not loading, then clear the
input; first component is the message sent, if any. -/
def handleSend (message : String) (isLoading : Bool) : Option String × String :=
  if ¬trimStr message = "" ∧ isLoading = false then (some (trimStr message), "")
  else (none, message)

theorem handleChange_length (m v : String) (h : m.length ≤ MAX_LENGTH) :
    (handleChange m v).length ≤ MAX_LENGTH := by
  unfold handleChange
  by_cases hv : v.length ≤ MAX_LENGTH
  · rw [if_pos hv]
    exact hv
  · rw [if_neg hv]
    exact h

theorem foldl_handleChange_length (events : List String) :
    ∀ m, m.length ≤ MAX_LENGTH → (events.foldl handleChange m).length ≤ MAX_LENGTH := by
  induction events with
  | nil =>
    intro m h
    exact h
  | cons v rest ih =>
    intro m h
    rw [List.foldl_cons]
    exact ih _ (handleChange_length m v h)

/-- **C10.** The `MessageInput` message state never exceeds 2000
characters after any sequence of change events from the empty initial
state, and `handleSend` invokes `onSendMessage` exactly when the trimmed
message is non-empty and `isLoading` is false, passing the trimmed text
and resetting the message state to the empty string. -/
theorem messageInput_invariants (events : List String) (m : String) (isLoading : Bool) :
    (events.foldl handleChange "").length ≤ MAX_LENGTH ∧
    (∀ t, (handleSend m isLoading).1 = some t ↔
      (¬trimStr m = "" ∧ isLoading = false ∧ t = trimStr m)) ∧
    ((handleSend m isLoading).1 ≠ none → (handleSend m isLoading).2 = "") ∧
    ((handleSend m isLoading).1 = none → (handleSend m isLoading).2 = m) := by
  refine ⟨foldl_handleChange_length events "" (by decide), ?_, ?_, ?_⟩
  · intro t
    unfold handleSend
    by_cases hc : ¬trimStr m = "" ∧ isLoading = false
    · rw [if_pos hc]
      constructor
      · intro hsome
        exact ⟨hc.1, hc.2, (Option.some_inj.mp hsome).symm⟩
      · rintro ⟨-, -, rfl⟩
        rfl
    · rw [if_neg hc]
      constructor
      · intro hnone
        cases hnone
      · rintro ⟨h1, h2, -⟩
        exact absurd ⟨h1, h2⟩ hc
  · unfold handleSend
    by_cases hc : ¬trimStr m = "" ∧ isLoading = false
    · rw [if_pos hc]
      intro
      rfl
    · rw [if_neg hc]
      intro hne
      exact absurd rfl hne
  · unfold handleSend
    by_cases hc : ¬trimStr m = "" ∧ isLoading = false
    · rw [if_pos hc]
      intro hnone
      cases hnone
    · rw [if_neg hc]
      intro
      rfl

/-- Witness for C10 at a concrete input. -/
theorem messageInput_invariants_witness :
    (handleSend "hi " false).1 = some "hi" :=
  ((messageInput_invariants [] "hi " false).2.1 "hi").mpr
    ⟨by decide, rfl, by decide⟩

/-! ## Instantiated witnesses for the universally quantified theorems -/

/-- Witness for C1 at a concrete input. -/
theorem recall_length_floor_sorted_witness :
    (recallOp defaultRecallConfig emptyStore "query" 3 Filters.empty).1.length ≤ 3 ∧
    (∀ e ∈ (recallOp defaultRecallConfig emptyStore "query" 3 Filters.empty).1,
      defaultRecallConfig.floor ≤ sim (embed "query") e.embedding) ∧
    (recallOp defaultRecallConfig emptyStore "query" 3 Filters.empty).1.Pairwise
      (RankAbove defaultRecallConfig emptyStore.now (embed "query")) :=
  recall_length_floor_sorted defaultRecallConfig emptyStore "query" 3

/-- Witness for C3 at a concrete input. -/
theorem consolidate_consolidate_no_merges_witness :
    (consolidate (consolidate emptyStore).1).2 = 0 :=
  consolidate_consolidate_no_merges emptyStore

/-- Witness for C4 at a concrete input. -/
theorem remember_recall_roundtrip_witness :
    EmbedFaithful emptyStore ∧
    ∃ e ∈ (recallOp defaultRecallConfig (remember emptyStore "ping" Kind.episodic 0).2
      "ping" 1 Filters.empty).1, e.content = "ping" :=
  ⟨by decide, remember_recall_roundtrip emptyStore "ping" Kind.episodic 0 (by decide)⟩

end AICompanion
